import Mathlib

/-
A shallow embedding of src/core/dataset/base_dataset.py (class TransductionDataset).

Modelling conventions:
* The processed-data directory is modelled as a finite map from file name to
  optional file contents (`FS`): `none` means the file does not exist, and a
  file's contents is its list of lines.  The key "gen" stands for the path
  `<processed_path>/gen.pt`, and a split name `s` stands for
  `<processed_path>/<s>.pt` (all paths live in one fixed directory).
* Compiled regular expressions are modelled as predicates `String → Bool`;
  `re.compile('|'.join(pats)).search(line)` is the disjunction of the pattern
  predicates, abstracted here as a single predicate.
* `np.random.choice(s_paths, p=s_probs)` is modelled by an oracle: a list of
  indices `choices : List Nat`, one consumed per non-withheld data line, with
  the chosen path `s_paths[choices.head]`.  The probability weights are carried
  in the configuration but — as in the source — are consumed only by the random
  choice oracle, never inspected otherwise.
* Python's `open(path, 'a').write(line)` creates the file when absent and
  appends one line (`FS.appendLine`); `os.remove` is `FS.remove`.
-/

namespace Transductions

/-- The processed-data directory: file name ↦ contents (`none` = file absent). -/
def FS : Type := String → Option (List String)

/-- A directory with no files (fresh `os.mkdir`). -/
def FS.empty : FS := fun _ => none

/-- Contents of the file at `p`, the empty list when the file is absent. -/
def FS.lines (fs : FS) (p : String) : List String := (fs p).getD []

/-- Number of lines of the file at `p` (0 when absent). -/
def FS.lineCount (fs : FS) (p : String) : Nat := (FS.lines fs p).length

/-- `os.remove(p)` (also a no-op delete when `p` is absent; the source guards
with `os.path.isfile` first, which makes the two indistinguishable). -/
def FS.remove (fs : FS) (p : String) : FS := fun q => if q = p then none else fs q

/-- `open(q, 'a').write(l)`: append one line to `q`, creating `q` if absent. -/
def FS.appendLine (fs : FS) (q l : String) : FS :=
  fun p => if p = q then some (FS.lines fs q ++ [l]) else fs p

/-- `'withholding' in cfg.dataset.keys() and bool(to_withhold.search(line))`:
true iff withholding is configured and the compiled pattern matches. -/
def matchesWithholding : Option (String → Bool) → String → Bool
  | none, _ => false
  | some w, line => w line

/-- The file a data line is routed to: `gen` when the withholding pattern
matches, otherwise the split drawn by the choice oracle
(`np.random.choice(s_paths, p=s_probs)`). -/
def routeKey (withholding : Option (String → Bool)) (gpath : String)
    (s_paths : List String) (line : String) (choices : List Nat) : String :=
  if matchesWithholding withholding line then gpath
  else s_paths.getD (choices.headD 0) ""

/-- The oracle indices left after one line: a choice is drawn (consumed) only
for a non-withheld line. -/
def nextChoices (withholding : Option (String → Bool)) (line : String)
    (choices : List Nat) : List Nat :=
  if matchesWithholding withholding line then choices else choices.tail

/-- The line loop of `_create_regular_splits`: each data line is appended to
the file `routeKey` selects for it. -/
def routeLines (withholding : Option (String → Bool)) (gpath : String)
    (s_paths : List String) : FS → List String → List Nat → FS
  | fs, [], _ => fs
  | fs, line :: rest, choices =>
      routeLines withholding gpath s_paths
        (fs.appendLine (routeKey withholding gpath s_paths line choices) line)
        rest (nextChoices withholding line choices)

/-- `TransductionDataset._create_regular_splits`.  `cfgSplits` is
`cfg.dataset.splits` as an association list (split name, percentage weight);
`withholding` is `some` of the compiled pattern when `'withholding'` is a
configured key, `none` otherwise; `raw` is the raw corpus (header line first);
`choices` is the random choice oracle. -/
def create_regular_splits (cfgSplits : List (String × Int))
    (withholding : Option (String → Bool)) (raw : List String)
    (choices : List Nat) (fs : FS) : FS :=
  -- if 'withholding' in cfg.dataset.keys(): remove a pre-existing gen.pt
  let fs1 : FS := match withholding with
    | some _ => fs.remove "gen"
    | none => fs
  let s_names := cfgSplits.map Prod.fst
  -- s_probs = [float(p) / 100.0 for p in splits.values()]: consumed only by
  -- the np.random.choice oracle, which the `choices` argument abstracts
  let _s_probs := cfgSplits.map (fun p => p.2)
  -- for split in s_paths: remove pre-existing split files
  let fs2 := s_names.foldl FS.remove fs1
  -- next(raw_data); for line in raw_data: route the line
  routeLines withholding "gen" s_names fs2 (raw.drop 1) choices

/-- The inner loop body of `_create_tracking_splits`: append `line` to the
file of the tracking entry `t` when `t`'s pattern matches it. -/
def trackingStep (line : String) (acc : FS) (t : String × (String → Bool)) :
    FS :=
  if t.2 line then acc.appendLine t.1 line else acc

/-- The line loop of `_create_tracking_splits`: for each data line, for each
tracking pattern in order, append the line to that pattern's file when the
pattern matches. -/
def appendMatches (tracking : List (String × (String → Bool))) :
    FS → List String → FS
  | fs, [] => fs
  | fs, line :: rest =>
      appendMatches tracking (tracking.foldl (trackingStep line) fs) rest

/-- `TransductionDataset._create_tracking_splits` when `'tracking'` is a
configured key.  `tracking` is `cfg.dataset.tracking` as an association list
(name, compiled pattern); `raw` is the raw corpus (header line first). -/
def create_tracking_splits (tracking : List (String × (String → Bool)))
    (raw : List String) (fs : FS) : FS :=
  let t_names := tracking.map Prod.fst
  -- for path in t_paths: remove pre-existing tracking files
  let fs1 := t_names.foldl FS.remove fs
  -- next(raw_data); for line in raw_data: for pattern: append on match
  appendMatches tracking fs1 (raw.drop 1)

/-- The abnormal exits of `_create_iterators`. -/
inductive IterError where
  | notImplemented : IterError
  | invalidTransformField : String → IterError
deriving DecidableEq

/-- Which field `transform_field` resolves to. -/
inductive TransformChoice where
  | sourceField : TransformChoice
  | targetField : TransformChoice
deriving DecidableEq

/-- The configuration checks at the top of `_create_iterators`: lowercase the
three configured strings, raise `NotImplementedError` unless both formats are
`'sequence'`, then raise `ValueError` unless `transform_field` is `'source'`
or `'target'`. -/
def create_iterators_check (source_format target_format transform_field :
    String) : Except IterError TransformChoice :=
  let sf := source_format.toLower
  let tf := target_format.toLower
  let trns := transform_field.toLower
  if sf = "sequence" ∧ tf = "sequence" then
    if trns = "source" then Except.ok TransformChoice.sourceField
    else if trns = "target" then Except.ok TransformChoice.targetField
    else Except.error (IterError.invalidTransformField trns)
  else Except.error IterError.notImplemented

/-- `TabularDataset(path, format='tsv', skip_header=..., fields=...)` at the
level of the example rows it yields: with `skip_header = True` the first line
of the file is not an example. -/
def tabular_dataset_lines (skip_header : Bool) (file : List String) :
    List String :=
  if skip_header then file.drop 1 else file

/-- The datasets `_create_iterators` builds are always constructed with
`skip_header = True` (line 130 of the source). -/
def dataset_of_split (file : List String) : List String :=
  tabular_dataset_lines true file

/-- The tokens one example line contributes to a `Field(lower=True)` vocabulary:
lowercase, split into the tab-separated columns, each column whitespace
tokenized by the default tokenizer. -/
def line_tokens (line : String) : List String :=
  ((line.toLower).splitOn "\x09").flatMap (fun col => col.splitOn " ")

/-- The token stream of one split file's `TabularDataset` (header skipped). -/
def dataset_tokens (file : List String) : List String :=
  (dataset_of_split file).flatMap line_tokens

/-- `file.split('.')[0]`: the split name of a processed file name. -/
def split_name_of (file : String) : String := (file.splitOn ".").headD ""

/-- The loop of `_create_iterators` over `os.listdir`: keep the files ending
in `.pt`, and retain in `_in_sample_data` those whose split name is one of
`train`, `test`, `val`.  `files` is the directory listing as (file name,
contents) pairs. -/
def in_sample_data (files : List (String × List String)) :
    List (String × List String) :=
  (files.filter (fun f => f.1.endsWith ".pt")).filter
    (fun f => (["train", "test", "val"] : List String).contains
      (split_name_of f.1))

/-- `build_vocab(*self._in_sample_data)`: the token multiset the vocabulary is
built from — all tokens of all in-sample datasets. -/
def build_vocab_tokens (files : List (String × List String)) : List String :=
  ((in_sample_data files).map (fun f => dataset_tokens f.2)).flatten

/-- The special token strings filtered by `id_to_token`. -/
def special_tokens : List String := ["<sos>", "<eos>", "<pad>"]

/-- `vocab.itos[i]` for an index vocabulary given as its `itos` list. -/
def decode_index (itos : List String) (i : Nat) : String := itos.getD i "<unk>"

/-- The first pass of `id_to_token` over one row: the `np.empty(..)` object
array, `None` (here `Option.none`) at every cell whose decoded string is a
special token and `show_special` is off. -/
def mark_row (itos : List String) (show_special : Bool) (row : List Nat) :
    List (Option String) :=
  row.map (fun i =>
    let s := decode_index itos i
    if ¬ s ∈ special_tokens ∨ show_special = true then some s else none)

/-- The second pass of `id_to_token` over one row: `r[r != np.array(None)]`,
dropping the `None` cells and compacting the rest in order. -/
def compact_row (row : List (Option String)) : List String := row.filterMap id

/-- `TransductionDataset.id_to_token`.  The two field vocabularies are given
by their `itos` lists; `idx_tensor` is the `[batch, seq_len]` index tensor as
a list of rows. -/
def id_to_token (itos_source itos_target : List String) (vocab_str : String)
    (show_special : Bool) (idx_tensor : List (List Nat)) : List (List String) :=
  -- vocab = self.source_field.vocab if vocab_str == 'source' else target
  let vocab := if vocab_str = "source" then itos_source else itos_target
  idx_tensor.map (fun r => compact_row (mark_row vocab show_special r))

/-- Specification device for `routeLines`: the lines, in order, that the loop
appends to the file `p`.  Proved to coincide with the loop in
`lines_routeLines`. -/
def routedTo (withholding : Option (String → Bool)) (gpath : String)
    (s_paths : List String) (p : String) : List String → List Nat → List String
  | [], _ => []
  | line :: rest, choices =>
      (if routeKey withholding gpath s_paths line choices = p then [line]
        else [])
        ++ routedTo withholding gpath s_paths p rest
            (nextChoices withholding line choices)

theorem FS.lines_empty (p : String) : FS.lines FS.empty p = [] := rfl

theorem FS.lines_appendLine (fs : FS) (q l p : String) :
    FS.lines (fs.appendLine q l) p
      = FS.lines fs p ++ (if q = p then [l] else []) := by
  by_cases h : p = q
  · subst h
    simp [FS.appendLine, FS.lines]
  · have h' : ¬ q = p := fun hqp => h hqp.symm
    simp [FS.appendLine, FS.lines, h, h']

theorem FS.appendLine_apply_ne (fs : FS) (q l p : String) (h : p ≠ q) :
    (fs.appendLine q l) p = fs p := by
  simp [FS.appendLine, h]

theorem FS.remove_apply (fs : FS) (p q : String) :
    (fs.remove p) q = if q = p then none else fs q := rfl

theorem foldl_remove_of_not_mem (l : List String) (fs : FS) (p : String)
    (h : p ∉ l) : (l.foldl FS.remove fs) p = fs p := by
  induction l generalizing fs with
  | nil => rfl
  | cons a t ih =>
      have hpa : p ≠ a := fun hpa => h (hpa ▸ List.mem_cons_self a t)
      have hpt : p ∉ t := fun hpt => h (List.mem_cons_of_mem a hpt)
      simp only [List.foldl_cons]
      rw [ih _ hpt, FS.remove_apply, if_neg hpa]

theorem foldl_remove_of_mem (l : List String) (fs : FS) (p : String)
    (h : p ∈ l) : (l.foldl FS.remove fs) p = none := by
  induction l generalizing fs with
  | nil => cases h
  | cons a t ih =>
      simp only [List.foldl_cons]
      by_cases hpt : p ∈ t
      · exact ih _ hpt
      · have hpa : p = a := by
          rcases List.mem_cons.mp h with h1 | h2
          · exact h1
          · exact absurd h2 hpt
        rw [foldl_remove_of_not_mem _ _ _ hpt, FS.remove_apply, if_pos hpa]

theorem foldl_remove_of_none (l : List String) (fs : FS) (p : String)
    (h : fs p = none) : (l.foldl FS.remove fs) p = none := by
  by_cases hp : p ∈ l
  · exact foldl_remove_of_mem _ _ _ hp
  · rw [foldl_remove_of_not_mem _ _ _ hp]; exact h

theorem lines_routeLines (w : Option (String → Bool)) (g : String)
    (sN : List String) (lines : List String) (choices : List Nat) (fs : FS)
    (p : String) :
    FS.lines (routeLines w g sN fs lines choices) p
      = FS.lines fs p ++ routedTo w g sN p lines choices := by
  induction lines generalizing fs choices with
  | nil => simp [routeLines, routedTo]
  | cons line rest ih =>
      simp only [routeLines, routedTo]
      rw [ih, FS.lines_appendLine, List.append_assoc]

theorem routeLines_apply_of_routedTo_nil (w : Option (String → Bool))
    (g : String) (sN : List String) (lines : List String) (choices : List Nat)
    (fs : FS) (p : String) (h : routedTo w g sN p lines choices = []) :
    (routeLines w g sN fs lines choices) p = fs p := by
  induction lines generalizing fs choices with
  | nil => rfl
  | cons line rest ih =>
      simp only [routedTo, List.append_eq_nil] at h
      have hk : routeKey w g sN line choices ≠ p := by
        intro hk
        simp [hk] at h
      simp only [routeLines]
      rw [ih _ _ h.2, FS.appendLine_apply_ne _ _ _ _ (fun hp => hk hp.symm)]

theorem routeLines_apply_congr (w : Option (String → Bool)) (g : String)
    (sN : List String) (lines : List String) (choices : List Nat)
    (fs fs' : FS) (p : String) (h : fs p = fs' p) :
    (routeLines w g sN fs lines choices) p
      = (routeLines w g sN fs' lines choices) p := by
  induction lines generalizing fs fs' choices with
  | nil => exact h
  | cons line rest ih =>
      simp only [routeLines]
      refine ih _ _ _ ?_
      by_cases hp : p = routeKey w g sN line choices
      · subst hp
        simp [FS.appendLine, FS.lines, h]
      · rw [FS.appendLine_apply_ne _ _ _ _ hp,
          FS.appendLine_apply_ne _ _ _ _ hp]
        exact h

theorem getD_mem_of_lt {α : Type} {l : List α} {n : Nat} {d : α}
    (h : n < l.length) : l.getD n d ∈ l := by
  rw [List.getD_eq_getElem?_getD, List.getElem?_eq_getElem h]
  exact List.getElem_mem h

theorem headD_lt {l : List Nat} {n : Nat} (hne : 0 < n)
    (hc : ∀ c ∈ l, c < n) : l.headD 0 < n := by
  cases l with
  | nil => exact hne
  | cons a t => exact hc a (List.mem_cons_self a t)

theorem mem_nextChoices {w : Option (String → Bool)} {line : String}
    {choices : List Nat} {c : Nat} (h : c ∈ nextChoices w line choices) :
    c ∈ choices := by
  unfold nextChoices at h
  split at h
  · exact h
  · exact List.mem_of_mem_tail h

theorem routeKey_mem_of_not_match {w : Option (String → Bool)} {g : String}
    {sN : List String} {line : String} {choices : List Nat}
    (hm : matchesWithholding w line = false) (hne : sN ≠ [])
    (hc : ∀ c ∈ choices, c < sN.length) :
    routeKey w g sN line choices ∈ sN := by
  unfold routeKey
  rw [hm]
  simp only [Bool.false_eq_true, if_false]
  exact getD_mem_of_lt (headD_lt (List.length_pos.mpr hne) hc)

theorem routeKey_of_match {w : Option (String → Bool)} {g : String}
    {sN : List String} {line : String} {choices : List Nat}
    (hm : matchesWithholding w line = true) :
    routeKey w g sN line choices = g := by
  unfold routeKey
  rw [hm]
  simp

theorem mem_of_mem_routedTo {w : Option (String → Bool)} {g : String}
    {sN : List String} {p : String} {lines : List String}
    {choices : List Nat} {l : String}
    (h : l ∈ routedTo w g sN p lines choices) : l ∈ lines := by
  induction lines generalizing choices with
  | nil => cases h
  | cons line rest ih =>
      simp only [routedTo, List.mem_append] at h
      rcases h with h1 | h2
      · by_cases hk : routeKey w g sN line choices = p
        · rw [if_pos hk] at h1
          have : l = line := List.mem_singleton.mp h1
          exact this ▸ List.mem_cons_self line rest
        · rw [if_neg hk] at h1
          cases h1
      · exact List.mem_cons_of_mem _ (ih h2)

theorem routedTo_gpath (w : String → Bool) (g : String) (sN : List String)
    (lines : List String) (choices : List Nat) (hg : g ∉ sN) (hne : sN ≠ [])
    (hc : ∀ c ∈ choices, c < sN.length) :
    routedTo (some w) g sN g lines choices = lines.filter w := by
  induction lines generalizing choices with
  | nil => rfl
  | cons line rest ih =>
      simp only [routedTo, List.filter_cons]
      by_cases hm : w line = true
      · have hmm : matchesWithholding (some w) line = true := hm
        rw [routeKey_of_match hmm, if_pos rfl, hm]
        simp only [if_true]
        unfold nextChoices
        rw [hmm]
        simp only [if_true]
        rw [ih _ hc]
        rfl
      · have hmm : matchesWithholding (some w) line = false := by
          simp only [matchesWithholding]
          exact Bool.not_eq_true _ ▸ (by simpa using hm)
        have hk : routeKey (some w) g sN line choices ∈ sN :=
          routeKey_mem_of_not_match hmm hne hc
        have hkg : ¬ routeKey (some w) g sN line choices = g := by
          intro h
          exact hg (h ▸ hk)
        rw [if_neg hkg]
        simp only [hm, if_neg]
        unfold nextChoices
        rw [hmm]
        simp only [Bool.false_eq_true, if_false]
        rw [ih _ (fun c hcm => hc c (List.mem_of_mem_tail hcm))]
        simp [hm]

theorem routedTo_none_gpath (g : String) (sN : List String)
    (lines : List String) (choices : List Nat) (hg : g ∉ sN) (hne : sN ≠ [])
    (hc : ∀ c ∈ choices, c < sN.length) :
    routedTo none g sN g lines choices = [] := by
  induction lines generalizing choices with
  | nil => rfl
  | cons line rest ih =>
      have hmm : matchesWithholding none line = false := rfl
      have hk : routeKey none g sN line choices ∈ sN :=
        routeKey_mem_of_not_match hmm hne hc
      have hkg : ¬ routeKey none g sN line choices = g := by
        intro h
        exact hg (h ▸ hk)
      simp only [routedTo, if_neg hkg, List.nil_append]
      unfold nextChoices
      rw [hmm]
      simp only [Bool.false_eq_true, if_false]
      exact ih _ (fun c hcm => hc c (List.mem_of_mem_tail hcm))

theorem not_match_of_mem_routedTo {w : Option (String → Bool)} {g : String}
    {sN : List String} {p : String} {lines : List String} {choices : List Nat}
    {l : String} (hp : p ≠ g) (h : l ∈ routedTo w g sN p lines choices) :
    matchesWithholding w l = false := by
  induction lines generalizing choices with
  | nil => cases h
  | cons line rest ih =>
      simp only [routedTo, List.mem_append] at h
      rcases h with h1 | h2
      · by_cases hm : matchesWithholding w line = true
        · rw [routeKey_of_match hm] at h1
          rw [if_neg (fun hgp => hp hgp.symm)] at h1
          cases h1
        · by_cases hk : routeKey w g sN line choices = p
          · rw [if_pos hk] at h1
            have : l = line := List.mem_singleton.mp h1
            subst this
            simpa using hm
          · rw [if_neg hk] at h1
            cases h1
      · exact ih h2

theorem list_sum_map_add {α : Type} (l : List α) (f g : α → Nat) :
    (l.map (fun a => f a + g a)).sum = (l.map f).sum + (l.map g).sum := by
  induction l with
  | nil => rfl
  | cons a t ih =>
      simp only [List.map_cons, List.sum_cons, ih]
      omega

theorem sum_indicator_of_not_mem (sN : List String) (x : String)
    (hx : x ∉ sN) :
    (sN.map (fun s => if x = s then 1 else 0)).sum = 0 := by
  induction sN with
  | nil => rfl
  | cons a t ih =>
      have hxa : x ≠ a := fun h => hx (h ▸ List.mem_cons_self a t)
      have hxt : x ∉ t := fun h => hx (List.mem_cons_of_mem a h)
      simp only [List.map_cons, List.sum_cons, if_neg hxa, ih hxt]

theorem sum_indicator_of_mem (sN : List String) (x : String)
    (hnd : sN.Nodup) (hx : x ∈ sN) :
    (sN.map (fun s => if x = s then 1 else 0)).sum = 1 := by
  induction sN with
  | nil => cases hx
  | cons a t ih =>
      rcases List.nodup_cons.mp hnd with ⟨hat, htnd⟩
      by_cases hxa : x = a
      · subst hxa
        simp only [List.map_cons, List.sum_cons, if_pos rfl,
          sum_indicator_of_not_mem t x hat]
        simp
      · have hxt : x ∈ t := by
          rcases List.mem_cons.mp hx with h | h
          · exact absurd h hxa
          · exact h
        simp only [List.map_cons, List.sum_cons, if_neg hxa, ih htnd hxt]

theorem routedTo_cons_length (w : Option (String → Bool)) (g : String)
    (sN : List String) (s line : String) (rest : List String)
    (choices : List Nat) :
    (routedTo w g sN s (line :: rest) choices).length
      = (if routeKey w g sN line choices = s then 1 else 0)
        + (routedTo w g sN s rest (nextChoices w line choices)).length := by
  simp only [routedTo, List.length_append]
  by_cases hk : routeKey w g sN line choices = s
  · rw [if_pos hk, if_pos hk]
    rfl
  · rw [if_neg hk, if_neg hk]
    rfl

theorem routedTo_length_sum (w : Option (String → Bool)) (g : String)
    (sN : List String) (hnd : sN.Nodup) (hg : g ∉ sN) (hne : sN ≠ []) :
    ∀ (lines : List String) (choices : List Nat),
      (∀ c ∈ choices, c < sN.length) →
      (sN.map (fun s => (routedTo w g sN s lines choices).length)).sum
        + (routedTo w g sN g lines choices).length = lines.length := by
  intro lines
  induction lines with
  | nil =>
      intro choices _
      simp [routedTo]
  | cons line rest ih =>
      intro choices hc
      have hc' : ∀ c ∈ nextChoices w line choices, c < sN.length :=
        fun c hcm => hc c (mem_nextChoices hcm)
      have hmap : (sN.map
            (fun s => (routedTo w g sN s (line :: rest) choices).length))
          = sN.map (fun s => (if routeKey w g sN line choices = s then 1 else 0)
              + (routedTo w g sN s rest (nextChoices w line choices)).length) := by
        have : (fun s => (routedTo w g sN s (line :: rest) choices).length)
            = (fun s => (if routeKey w g sN line choices = s then 1 else 0)
              + (routedTo w g sN s rest (nextChoices w line choices)).length) :=
          funext (fun s => routedTo_cons_length w g sN s line rest choices)
        rw [this]
      rw [hmap, list_sum_map_add, routedTo_cons_length]
      have hrest := ih (nextChoices w line choices) hc'
      by_cases hm : matchesWithholding w line = true
      · have hk : routeKey w g sN line choices = g := routeKey_of_match hm
        have hind : (sN.map
            (fun s => if routeKey w g sN line choices = s then 1 else 0)).sum
            = 0 := by
          rw [hk]
          exact sum_indicator_of_not_mem sN g hg
        rw [hind, if_pos hk]
        simp only [List.length_cons]
        omega
      · have hmm : matchesWithholding w line = false := by simpa using hm
        have hk : routeKey w g sN line choices ∈ sN :=
          routeKey_mem_of_not_match hmm hne hc
        have hind : (sN.map
            (fun s => if routeKey w g sN line choices = s then 1 else 0)).sum
            = 1 := sum_indicator_of_mem sN _ hnd hk
        have hkg : ¬ routeKey w g sN line choices = g :=
          fun h => hg (h ▸ hk)
        rw [hind, if_neg hkg]
        simp only [List.length_cons]
        omega

theorem routedTo_disjoint (w : Option (String → Bool)) (g : String)
    (sN : List String) (p q : String) (hpq : p ≠ q) :
    ∀ (lines : List String) (choices : List Nat), lines.Nodup →
      ∀ l ∈ routedTo w g sN p lines choices,
        l ∉ routedTo w g sN q lines choices := by
  intro lines
  induction lines with
  | nil =>
      intro choices _ l hl
      cases hl
  | cons line rest ih =>
      intro choices hnd l hl
      rcases List.nodup_cons.mp hnd with ⟨hline, hrest⟩
      simp only [routedTo, List.mem_append] at hl
      intro hq
      simp only [routedTo, List.mem_append] at hq
      rcases hl with h1 | h2
      · by_cases hk : routeKey w g sN line choices = p
        · rw [if_pos hk] at h1
          have hl_eq : l = line := List.mem_singleton.mp h1
          subst hl_eq
          rcases hq with hq1 | hq2
          · rw [if_neg (fun h => hpq (hk.symm.trans h))] at hq1
            cases hq1
          · exact hline (mem_of_mem_routedTo hq2)
        · rw [if_neg hk] at h1
          cases h1
      · have hlrest : l ∈ rest := mem_of_mem_routedTo h2
        rcases hq with hq1 | hq2
        · by_cases hkq : routeKey w g sN line choices = q
          · rw [if_pos hkq] at hq1
            have : l = line := List.mem_singleton.mp hq1
            exact hline (this ▸ hlrest)
          · rw [if_neg hkq] at hq1
            cases hq1
        · exact ih _ hrest l h2 hq2

theorem FS.lines_congr {fs fs' : FS} {p : String} (h : fs p = fs' p) :
    FS.lines fs p = FS.lines fs' p := by
  unfold FS.lines
  rw [h]

theorem create_regular_splits_eq (cfgSplits : List (String × Int))
    (w : Option (String → Bool)) (raw : List String) (choices : List Nat)
    (fs : FS) :
    create_regular_splits cfgSplits w raw choices fs
      = routeLines w "gen" (cfgSplits.map Prod.fst)
          ((cfgSplits.map Prod.fst).foldl FS.remove
            (match w with | some _ => fs.remove "gen" | none => fs))
          (raw.drop 1) choices := rfl

theorem create_base_apply_none (w : Option (String → Bool))
    (names : List String) (p : String) :
    (names.foldl FS.remove
      (match w with | some _ => FS.empty.remove "gen" | none => FS.empty)) p
      = none := by
  apply foldl_remove_of_none
  cases w with
  | none => rfl
  | some wp =>
      show (FS.empty.remove "gen") p = none
      rw [FS.remove_apply]
      split
      · rfl
      · rfl

theorem lines_create_regular_splits_empty (cfgSplits : List (String × Int))
    (w : Option (String → Bool)) (raw : List String) (choices : List Nat)
    (p : String) :
    FS.lines (create_regular_splits cfgSplits w raw choices FS.empty) p
      = routedTo w "gen" (cfgSplits.map Prod.fst) p (raw.drop 1) choices := by
  rw [create_regular_splits_eq, lines_routeLines]
  have hlines : FS.lines ((cfgSplits.map Prod.fst).foldl FS.remove
      (match w with | some _ => FS.empty.remove "gen" | none => FS.empty)) p
      = [] := by
    unfold FS.lines
    rw [create_base_apply_none w (cfgSplits.map Prod.fst) p]
    rfl
  rw [hlines, List.nil_append]

theorem trackingStep_apply_ne (line : String) (acc : FS)
    (t : String × (String → Bool)) (p : String) (h : p ≠ t.1) :
    (trackingStep line acc t) p = acc p := by
  unfold trackingStep
  split
  · exact FS.appendLine_apply_ne _ _ _ _ h
  · rfl

theorem foldl_trackingStep_not_mem (tracking : List (String × (String → Bool)))
    (line : String) (fs : FS) (p : String)
    (h : p ∉ tracking.map Prod.fst) :
    (tracking.foldl (trackingStep line) fs) p = fs p := by
  induction tracking generalizing fs with
  | nil => rfl
  | cons t rest ih =>
      have hpt : p ≠ t.1 := by
        intro hp
        exact h (hp ▸ List.mem_cons_self t.1 (rest.map Prod.fst))
      have hprest : p ∉ rest.map Prod.fst := by
        intro hp
        exact h (List.mem_cons_of_mem _ hp)
      simp only [List.foldl_cons]
      rw [ih _ hprest, trackingStep_apply_ne _ _ _ _ hpt]

theorem lines_trackingStep_self (line : String) (fs : FS)
    (t : String × (String → Bool)) :
    FS.lines (trackingStep line fs t) t.1
      = FS.lines fs t.1 ++ (if t.2 line then [line] else []) := by
  unfold trackingStep
  by_cases h : t.2 line = true
  · rw [if_pos h, if_pos h, FS.lines_appendLine, if_pos rfl]
  · rw [if_neg h, if_neg h, List.append_nil]

theorem lines_foldl_trackingStep (tracking : List (String × (String → Bool)))
    (line : String) (hnd : (tracking.map Prod.fst).Nodup)
    (t : String × (String → Bool)) (ht : t ∈ tracking) (fs : FS) :
    FS.lines (tracking.foldl (trackingStep line) fs) t.1
      = FS.lines fs t.1 ++ (if t.2 line then [line] else []) := by
  induction tracking generalizing fs with
  | nil => cases ht
  | cons h rest ih =>
      simp only [List.map_cons] at hnd
      rcases List.nodup_cons.mp hnd with ⟨hh, hrest⟩
      simp only [List.foldl_cons]
      rcases List.mem_cons.mp ht with hth | htrest
      · subst hth
        rw [FS.lines_congr (foldl_trackingStep_not_mem rest line _ t.1 hh)]
        exact lines_trackingStep_self line fs t
      · have htne : t.1 ≠ h.1 := by
          intro he
          exact hh (he ▸ List.mem_map_of_mem Prod.fst htrest)
        rw [ih hrest htrest]
        rw [FS.lines_congr (trackingStep_apply_ne line fs h t.1 htne)]

theorem appendMatches_not_mem (tracking : List (String × (String → Bool)))
    (lines : List String) (fs : FS) (p : String)
    (h : p ∉ tracking.map Prod.fst) :
    (appendMatches tracking fs lines) p = fs p := by
  induction lines generalizing fs with
  | nil => rfl
  | cons line rest ih =>
      simp only [appendMatches]
      rw [ih _, foldl_trackingStep_not_mem _ _ _ _ h]

theorem lines_appendMatches (tracking : List (String × (String → Bool)))
    (hnd : (tracking.map Prod.fst).Nodup) (t : String × (String → Bool))
    (ht : t ∈ tracking) (lines : List String) (fs : FS) :
    FS.lines (appendMatches tracking fs lines) t.1
      = FS.lines fs t.1 ++ lines.filter t.2 := by
  induction lines generalizing fs with
  | nil => simp [appendMatches]
  | cons line rest ih =>
      simp only [appendMatches, List.filter_cons]
      rw [ih _, lines_foldl_trackingStep tracking line hnd t ht]
      by_cases hm : t.2 line = true
      · rw [if_pos hm, if_pos hm]
        simp
      · rw [if_neg hm, if_neg hm]
        simp

theorem create_tracking_splits_eq (tracking : List (String × (String → Bool)))
    (raw : List String) (fs : FS) :
    create_tracking_splits tracking raw fs
      = appendMatches tracking
          ((tracking.map Prod.fst).foldl FS.remove fs) (raw.drop 1) := rfl

theorem mem_routedTo_total (w : Option (String → Bool)) (g : String)
    (sN : List String) (hne : sN ≠ []) :
    ∀ (lines : List String) (choices : List Nat),
      (∀ c ∈ choices, c < sN.length) →
      ∀ l ∈ lines, ∃ p, (p = g ∨ p ∈ sN)
        ∧ l ∈ routedTo w g sN p lines choices := by
  intro lines
  induction lines with
  | nil =>
      intro choices _ l hl
      cases hl
  | cons line rest ih =>
      intro choices hc l hl
      rcases List.mem_cons.mp hl with hl1 | hl2
      · subst hl1
        refine ⟨routeKey w g sN l choices, ?_, ?_⟩
        · by_cases hm : matchesWithholding w l = true
          · exact Or.inl (routeKey_of_match hm)
          · exact Or.inr (routeKey_mem_of_not_match (by simpa using hm) hne hc)
        · simp only [routedTo, if_pos rfl, List.mem_append]
          exact Or.inl (List.mem_singleton.mpr rfl)
      · rcases ih (nextChoices w line choices)
            (fun c hcm => hc c (mem_nextChoices hcm)) l hl2 with ⟨p, hp, hpl⟩
        refine ⟨p, hp, ?_⟩
        simp only [routedTo, List.mem_append]
        exact Or.inr hpl

theorem compact_row_cons_some (s : String) (l : List (Option String)) :
    compact_row (some s :: l) = s :: compact_row l := rfl

theorem compact_row_cons_none (l : List (Option String)) :
    compact_row (none :: l) = compact_row l := rfl

theorem compact_mark_row_false (itos : List String) (row : List Nat) :
    compact_row (mark_row itos false row)
      = (row.map (decode_index itos)).filter
          (fun s => decide (¬ s ∈ special_tokens)) := by
  induction row with
  | nil => rfl
  | cons i rest ih =>
      show compact_row ((if ¬ decode_index itos i ∈ special_tokens
            ∨ false = true then some (decode_index itos i) else none)
          :: mark_row itos false rest)
        = ((i :: rest).map (decode_index itos)).filter
            (fun s => decide (¬ s ∈ special_tokens))
      by_cases h : decode_index itos i ∈ special_tokens
      · rw [if_neg (by simp [h]), compact_row_cons_none, ih, List.map_cons,
          List.filter_cons]
        simp [h]
      · rw [if_pos (by simp [h]), compact_row_cons_some, ih, List.map_cons,
          List.filter_cons]
        simp [h]

theorem compact_mark_row_true (itos : List String) (row : List Nat) :
    compact_row (mark_row itos true row) = row.map (decode_index itos) := by
  induction row with
  | nil => rfl
  | cons i rest ih =>
      show compact_row ((if ¬ decode_index itos i ∈ special_tokens
            ∨ true = true then some (decode_index itos i) else none)
          :: mark_row itos true rest)
        = (i :: rest).map (decode_index itos)
      rw [if_pos (Or.inr rfl), compact_row_cons_some, ih, List.map_cons]

/-- C1 (amended): running the regular-split generator into a fresh processed
directory writes each data line occurrence to exactly one of the configured
split files or the gen file, so the line counts of the split files plus the
gen file sum to the number N of data lines; and, provided the data lines are
pairwise distinct, the files are pairwise disjoint in line content. -/
theorem C1_split_totality_and_disjointness (cfgSplits : List (String × Int))
    (w : Option (String → Bool)) (raw : List String) (choices : List Nat)
    (hnd : (cfgSplits.map Prod.fst).Nodup)
    (hg : "gen" ∉ cfgSplits.map Prod.fst)
    (hne : cfgSplits.map Prod.fst ≠ [])
    (hc : ∀ c ∈ choices, c < (cfgSplits.map Prod.fst).length)
    (hraw : (raw.drop 1).Nodup) :
    ((cfgSplits.map Prod.fst).map
        (fun s => FS.lineCount
          (create_regular_splits cfgSplits w raw choices FS.empty) s)).sum
      + FS.lineCount (create_regular_splits cfgSplits w raw choices FS.empty)
          "gen"
      = (raw.drop 1).length
    ∧ ∀ p q : String, p ≠ q →
        ∀ l ∈ FS.lines
            (create_regular_splits cfgSplits w raw choices FS.empty) p,
          l ∉ FS.lines
            (create_regular_splits cfgSplits w raw choices FS.empty) q := by
  constructor
  · have h1 : ∀ s, FS.lineCount
        (create_regular_splits cfgSplits w raw choices FS.empty) s
        = (routedTo w "gen" (cfgSplits.map Prod.fst) s (raw.drop 1)
            choices).length := by
      intro s
      unfold FS.lineCount
      rw [lines_create_regular_splits_empty]
    have h2 : (fun s => FS.lineCount
        (create_regular_splits cfgSplits w raw choices FS.empty) s)
        = (fun s => (routedTo w "gen" (cfgSplits.map Prod.fst) s (raw.drop 1)
            choices).length) := funext h1
    rw [h2, h1 "gen"]
    exact routedTo_length_sum w "gen" (cfgSplits.map Prod.fst) hnd hg hne
      (raw.drop 1) choices hc
  · intro p q hpq l hl
    rw [lines_create_regular_splits_empty] at hl
    rw [lines_create_regular_splits_empty]
    exact routedTo_disjoint w "gen" (cfgSplits.map Prod.fst) p q hpq
      (raw.drop 1) choices hraw l hl

/-- C1 counterexample: with the duplicate data line "a" occurring twice, the
generator can write the same line content to two different split files
(choices 0 and 1 route the two occurrences to train and val), so the claim's
unconditional pairwise disjointness in line content is false. -/
theorem C1_counterexample :
    "a" ∈ FS.lines (create_regular_splits
        [("train", 80), ("val", 10), ("test", 10)] none
        ["header", "a", "a"] [0, 1] FS.empty) "train"
    ∧ "a" ∈ FS.lines (create_regular_splits
        [("train", 80), ("val", 10), ("test", 10)] none
        ["header", "a", "a"] [0, 1] FS.empty) "val"
    ∧ ¬ (∀ l ∈ FS.lines (create_regular_splits
        [("train", 80), ("val", 10), ("test", 10)] none
        ["header", "a", "a"] [0, 1] FS.empty) "train",
        l ∉ FS.lines (create_regular_splits
          [("train", 80), ("val", 10), ("test", 10)] none
          ["header", "a", "a"] [0, 1] FS.empty) "val") := by
  refine ⟨by decide, by decide, ?_⟩
  intro h
  exact h "a" (by decide) (by decide)

/-- C1 witness: the amended theorem applied at a concrete corpus with three
distinct data lines routed to train, val and test. -/
theorem C1_witness :
    (([("train", (80 : Int)), ("val", 10), ("test", 10)].map Prod.fst).map
        (fun s => FS.lineCount (create_regular_splits
          [("train", 80), ("val", 10), ("test", 10)] none
          ["header", "a", "b", "c"] [0, 1, 2] FS.empty) s)).sum
      + FS.lineCount (create_regular_splits
          [("train", 80), ("val", 10), ("test", 10)] none
          ["header", "a", "b", "c"] [0, 1, 2] FS.empty) "gen"
      = (["header", "a", "b", "c"].drop 1).length
    ∧ ∀ p q : String, p ≠ q →
        ∀ l ∈ FS.lines (create_regular_splits
            [("train", 80), ("val", 10), ("test", 10)] none
            ["header", "a", "b", "c"] [0, 1, 2] FS.empty) p,
          l ∉ FS.lines (create_regular_splits
            [("train", 80), ("val", 10), ("test", 10)] none
            ["header", "a", "b", "c"] [0, 1, 2] FS.empty) q :=
  C1_split_totality_and_disjointness _ _ _ _ (by decide) (by decide)
    (by decide) (by decide) (by decide)

/-- C2 (amended): re-running the regular-split generator erases and
regenerates exactly the split files named in the new configuration: the
resulting contents of every configured split file is independent of the
pre-existing directory state; a stale gen file is erased (and regenerated
from the new run only) when withholding is configured in the new run; but
when no withholding patterns are configured the gen file is left exactly as
it was — no gen file is created, and a stale gen file from a prior run is
NOT removed. -/
theorem C2_overwrite_behavior (cfgSplits : List (String × Int))
    (w : Option (String → Bool)) (raw : List String) (choices : List Nat)
    (fs : FS)
    (hg : "gen" ∉ cfgSplits.map Prod.fst)
    (hne : cfgSplits.map Prod.fst ≠ [])
    (hc : ∀ c ∈ choices, c < (cfgSplits.map Prod.fst).length) :
    (∀ s ∈ cfgSplits.map Prod.fst,
      create_regular_splits cfgSplits w raw choices fs s
        = create_regular_splits cfgSplits w raw choices FS.empty s)
    ∧ ((∃ wp, w = some wp) →
      create_regular_splits cfgSplits w raw choices fs "gen"
        = create_regular_splits cfgSplits w raw choices FS.empty "gen")
    ∧ (w = none →
      create_regular_splits cfgSplits w raw choices fs "gen" = fs "gen") := by
  refine ⟨?_, ?_, ?_⟩
  · intro s hs
    rw [create_regular_splits_eq, create_regular_splits_eq]
    apply routeLines_apply_congr
    rw [foldl_remove_of_mem _ _ _ hs, foldl_remove_of_mem _ _ _ hs]
  · rintro ⟨wp, rfl⟩
    rw [create_regular_splits_eq, create_regular_splits_eq]
    apply routeLines_apply_congr
    rw [foldl_remove_of_not_mem _ _ _ hg, foldl_remove_of_not_mem _ _ _ hg]
    show (fs.remove "gen") "gen" = (FS.empty.remove "gen") "gen"
    rw [FS.remove_apply, FS.remove_apply, if_pos rfl, if_pos rfl]
  · rintro rfl
    rw [create_regular_splits_eq]
    rw [routeLines_apply_of_routedTo_nil _ _ _ _ _ _ _
      (routedTo_none_gpath "gen" (cfgSplits.map Prod.fst) (raw.drop 1)
        choices hg hne hc)]
    rw [foldl_remove_of_not_mem _ _ _ hg]

/-- C2 counterexample: a prior run with withholding left a gen file
containing "stale"; a re-run whose configuration has no withholding key
neither deletes nor rewrites it, so a leftover stale file remains after
regeneration, contradicting the claim that every pre-existing split file
(including a stale gen file) is deleted. -/
theorem C2_counterexample :
    create_regular_splits [("train", 100)] none ["header"] []
        (FS.empty.appendLine "gen" "stale") "gen" = some ["stale"]
    ∧ create_regular_splits [("train", 100)] none ["header"] []
        (FS.empty.appendLine "gen" "stale") "gen" ≠ none := by
  refine ⟨by decide, by decide⟩

/-- C2 witness: the amended theorem applied to a directory holding a stale
gen file, with a no-withholding configuration. -/
theorem C2_witness :
    (∀ s ∈ [("train", (100 : Int))].map Prod.fst,
      create_regular_splits [("train", 100)] none ["header", "x"] [0]
          (FS.empty.appendLine "gen" "stale") s
        = create_regular_splits [("train", 100)] none ["header", "x"] [0]
            FS.empty s)
    ∧ ((∃ wp, (none : Option (String → Bool)) = some wp) →
      create_regular_splits [("train", 100)] none ["header", "x"] [0]
          (FS.empty.appendLine "gen" "stale") "gen"
        = create_regular_splits [("train", 100)] none ["header", "x"] [0]
            FS.empty "gen")
    ∧ ((none : Option (String → Bool)) = none →
      create_regular_splits [("train", 100)] none ["header", "x"] [0]
          (FS.empty.appendLine "gen" "stale") "gen"
        = (FS.empty.appendLine "gen" "stale") "gen") :=
  C2_overwrite_behavior _ _ _ _ _ (by decide) (by decide) (by decide)

/-- C4: during regular split generation the header line is skipped and each
remaining line is routed to the gen file exactly when the withholding pattern
matches it: the gen file's contents is the in-order filter of the data lines
by the pattern; no line of any configured split file matches the pattern (a
withheld line is never placed in train/val/test); and every non-matching
data line lands in some configured split file. -/
theorem C4_withholding_routing (cfgSplits : List (String × Int))
    (w : String → Bool) (raw : List String) (choices : List Nat)
    (hg : "gen" ∉ cfgSplits.map Prod.fst)
    (hne : cfgSplits.map Prod.fst ≠ [])
    (hc : ∀ c ∈ choices, c < (cfgSplits.map Prod.fst).length) :
    FS.lines (create_regular_splits cfgSplits (some w) raw choices FS.empty)
        "gen"
      = (raw.drop 1).filter w
    ∧ (∀ s ∈ cfgSplits.map Prod.fst,
        ∀ l ∈ FS.lines
            (create_regular_splits cfgSplits (some w) raw choices FS.empty) s,
          w l = false)
    ∧ (∀ l ∈ raw.drop 1, w l = false →
        ∃ s ∈ cfgSplits.map Prod.fst,
          l ∈ FS.lines
            (create_regular_splits cfgSplits (some w) raw choices FS.empty)
            s) := by
  refine ⟨?_, ?_, ?_⟩
  · rw [lines_create_regular_splits_empty]
    exact routedTo_gpath w "gen" (cfgSplits.map Prod.fst) (raw.drop 1)
      choices hg hne hc
  · intro s hs l hl
    rw [lines_create_regular_splits_empty] at hl
    have hsg : s ≠ "gen" := fun h => hg (h ▸ hs)
    exact not_match_of_mem_routedTo hsg hl
  · intro l hl hw
    rcases mem_routedTo_total (some w) "gen" (cfgSplits.map Prod.fst) hne
        (raw.drop 1) choices hc l hl with ⟨p, hp, hpl⟩
    rcases hp with hpg | hps
    · subst hpg
      rw [routedTo_gpath w "gen" (cfgSplits.map Prod.fst) (raw.drop 1)
        choices hg hne hc] at hpl
      rcases List.mem_filter.mp hpl with ⟨_, hwl⟩
      rw [hw] at hwl
      cases hwl
    · refine ⟨p, hps, ?_⟩
      rw [lines_create_regular_splits_empty]
      exact hpl

/-- C4 witness: the routing theorem at a concrete corpus where "bad" is
withheld and "x", "y" are drawn into train and val. -/
theorem C4_witness :
    FS.lines (create_regular_splits [("train", 50), ("val", 50)]
        (some (fun l => l == "bad")) ["header", "x", "bad", "y"] [0, 1]
        FS.empty) "gen"
      = (["header", "x", "bad", "y"].drop 1).filter (fun l => l == "bad")
    ∧ (∀ s ∈ [("train", (50 : Int)), ("val", 50)].map Prod.fst,
        ∀ l ∈ FS.lines (create_regular_splits [("train", 50), ("val", 50)]
            (some (fun l => l == "bad")) ["header", "x", "bad", "y"] [0, 1]
            FS.empty) s,
          (fun l => l == "bad") l = false)
    ∧ (∀ l ∈ ["header", "x", "bad", "y"].drop 1,
        (fun l => l == "bad") l = false →
        ∃ s ∈ [("train", (50 : Int)), ("val", 50)].map Prod.fst,
          l ∈ FS.lines (create_regular_splits [("train", 50), ("val", 50)]
            (some (fun l => l == "bad")) ["header", "x", "bad", "y"] [0, 1]
            FS.empty) s) :=
  C4_withholding_routing _ _ _ _ (by decide) (by decide) (by decide)

/-- C8: the split generator performs no validation of the configured split
weights: the produced directory state depends on the configuration's split
names and on the random-choice oracle only, so replacing the weights by any
other weights (summing to 100 or not, negative or not) while keeping the
names gives the identical result.  (The weights are consumed solely by the
`np.random.choice` oracle, which the `choices` argument abstracts; no check
on them exists anywhere in the generator.) -/
theorem C8_no_weight_validation (s1 s2 : List (String × Int))
    (w : Option (String → Bool)) (raw : List String) (choices : List Nat)
    (fs : FS) (h : s1.map Prod.fst = s2.map Prod.fst) :
    create_regular_splits s1 w raw choices fs
      = create_regular_splits s2 w raw choices fs := by
  rw [create_regular_splits_eq, create_regular_splits_eq, h]

/-- C8 witness: weights 80 and 20 (sum 100) versus 3 and -7 (sum -4) with the
same split names produce the same directory state. -/
theorem C8_witness :
    create_regular_splits [("train", 80), ("val", 20)] none
        ["header", "a", "b"] [0, 1] FS.empty
      = create_regular_splits [("train", 3), ("val", -7)] none
          ["header", "a", "b"] [0, 1] FS.empty :=
  C8_no_weight_validation _ _ _ _ _ _ rfl

/-- C9: every file the regular-split generator writes contains only data
lines of the raw corpus (the raw header is never written), yet the dataset
built over a split file skips its first line (`skip_header=True`), so
whenever a produced file is non-empty its first line — a data line — is
excluded from that split's dataset. -/
theorem C9_skip_header_loses_first_data_line (cfgSplits : List (String × Int))
    (w : Option (String → Bool)) (raw : List String) (choices : List Nat)
    (p : String) :
    (∀ l ∈ FS.lines (create_regular_splits cfgSplits w raw choices FS.empty)
        p, l ∈ raw.drop 1)
    ∧ dataset_of_split
        (FS.lines (create_regular_splits cfgSplits w raw choices FS.empty) p)
      = (FS.lines
          (create_regular_splits cfgSplits w raw choices FS.empty) p).drop 1
    ∧ (FS.lines (create_regular_splits cfgSplits w raw choices FS.empty) p
        ≠ [] →
      ∃ hd tl,
        FS.lines (create_regular_splits cfgSplits w raw choices FS.empty) p
          = hd :: tl
        ∧ hd ∈ raw.drop 1
        ∧ dataset_of_split (FS.lines
            (create_regular_splits cfgSplits w raw choices FS.empty) p)
          = tl) := by
  refine ⟨?_, rfl, ?_⟩
  · intro l hl
    rw [lines_create_regular_splits_empty] at hl
    exact mem_of_mem_routedTo hl
  · intro hne
    cases hfile : FS.lines
        (create_regular_splits cfgSplits w raw choices FS.empty) p with
    | nil => exact absurd hfile hne
    | cons hd tl =>
        refine ⟨hd, tl, rfl, ?_, rfl⟩
        have hmem : hd ∈ FS.lines
            (create_regular_splits cfgSplits w raw choices FS.empty) p := by
          rw [hfile]
          exact List.mem_cons_self hd tl
        rw [lines_create_regular_splits_empty] at hmem
        exact mem_of_mem_routedTo hmem

/-- C9 witness: a concrete train file with two data lines, of which the
dataset keeps only the second. -/
theorem C9_witness :
    ∃ hd tl,
      FS.lines (create_regular_splits [("train", 100)] none
          ["header", "x", "y"] [0, 0] FS.empty) "train" = hd :: tl
      ∧ hd ∈ ["header", "x", "y"].drop 1
      ∧ dataset_of_split (FS.lines (create_regular_splits [("train", 100)]
          none ["header", "x", "y"] [0, 0] FS.empty) "train") = tl :=
  (C9_skip_header_loses_first_data_line [("train", 100)] none
    ["header", "x", "y"] [0, 0] "train").2.2 (by decide)

/-- C3: with `show_special = false`, `id_to_token` returns, per batch row,
the decoded token strings with every occurrence of a special token removed,
preserving row order and the relative order of the remaining tokens and
compacting the filtered positions (the result of each row is exactly the
in-order filter of the decoded row); with `show_special = true` no token is
removed (each row is exactly the decoded row). -/
theorem C3_id_to_token_filtering (itos_source itos_target : List String)
    (vocab_str : String) (idx_tensor : List (List Nat)) :
    id_to_token itos_source itos_target vocab_str false idx_tensor
      = idx_tensor.map (fun row =>
          (row.map (decode_index
              (if vocab_str = "source" then itos_source else itos_target))).filter
            (fun s => decide (¬ s ∈ special_tokens)))
    ∧ id_to_token itos_source itos_target vocab_str true idx_tensor
      = idx_tensor.map (fun row =>
          row.map (decode_index
            (if vocab_str = "source" then itos_source else itos_target))) := by
  constructor
  · show idx_tensor.map (fun r => compact_row (mark_row
        (if vocab_str = "source" then itos_source else itos_target) false r))
      = _
    rw [funext (compact_mark_row_false
      (if vocab_str = "source" then itos_source else itos_target))]
  · show idx_tensor.map (fun r => compact_row (mark_row
        (if vocab_str = "source" then itos_source else itos_target) true r))
      = _
    rw [funext (compact_mark_row_true
      (if vocab_str = "source" then itos_source else itos_target))]

/-- C10: `id_to_token` never rejects its `vocab_str` argument — for every
string other than exactly "source" (misspellings, different case, arbitrary
strings) it decodes with the target vocabulary, and no error path exists in
the function. -/
theorem C10_vocab_str_fallback (itos_source itos_target : List String)
    (vocab_str : String) (show_special : Bool) (idx_tensor : List (List Nat))
    (h : vocab_str ≠ "source") :
    id_to_token itos_source itos_target vocab_str show_special idx_tensor
      = idx_tensor.map
          (fun r => compact_row (mark_row itos_target show_special r)) := by
  simp only [id_to_token, if_neg h]

/-- C10 witness: the capitalised selector "Source" is not the string
"source", so decoding uses the target vocabulary. -/
theorem C10_witness :
    id_to_token ["a"] ["b"] "Source" true [[0]]
      = [[0]].map (fun r => compact_row (mark_row ["b"] true r)) :=
  C10_vocab_str_fallback _ _ _ _ _ (by decide)

/-- C5: `_create_iterators` raises `NotImplementedError` iff the configured
source/target formats are not both "sequence" after lowercasing; and, with
supported formats, it raises `ValueError` iff the lowercased
`transform_field` is neither "source" nor "target". -/
theorem C5_iterator_error_conditions
    (source_format target_format transform_field : String) :
    (create_iterators_check source_format target_format transform_field
        = Except.error IterError.notImplemented
      ↔ ¬ (source_format.toLower = "sequence"
            ∧ target_format.toLower = "sequence"))
    ∧ (create_iterators_check source_format target_format transform_field
        = Except.error
            (IterError.invalidTransformField transform_field.toLower)
      ↔ ((source_format.toLower = "sequence"
            ∧ target_format.toLower = "sequence")
          ∧ transform_field.toLower ≠ "source"
          ∧ transform_field.toLower ≠ "target")) := by
  unfold create_iterators_check
  dsimp only
  split_ifs with h1 h2 h3 <;> simp_all

/-- C6: a token enters the vocabulary token stream exactly when it occurs in
the dataset of a listed `.pt` file whose split name is `train`, `test` or
`val` — datasets built from `gen` or tracking split files never contribute
vocabulary entries. -/
theorem C6_vocab_in_sample_only (files : List (String × List String))
    (tok : String) :
    tok ∈ build_vocab_tokens files
      ↔ ∃ f ∈ files, f.1.endsWith ".pt" = true
          ∧ split_name_of f.1 ∈ (["train", "test", "val"] : List String)
          ∧ tok ∈ dataset_tokens f.2 := by
  unfold build_vocab_tokens in_sample_data
  rw [List.mem_flatten]
  constructor
  · rintro ⟨d, hd, htok⟩
    rcases List.mem_map.mp hd with ⟨f, hf, rfl⟩
    rcases List.mem_filter.mp hf with ⟨hf2, hname⟩
    rcases List.mem_filter.mp hf2 with ⟨hfiles, hext⟩
    exact ⟨f, hfiles, hext, List.elem_iff.mp hname, htok⟩
  · rintro ⟨f, hfiles, hext, hname, htok⟩
    refine ⟨dataset_tokens f.2, ?_, htok⟩
    refine List.mem_map.mpr ⟨f, ?_, rfl⟩
    exact List.mem_filter.mpr
      ⟨List.mem_filter.mpr ⟨hfiles, hext⟩, List.elem_iff.mpr hname⟩

/-- C7: the tracking split generator erases each configured tracking file and
refills it with exactly the data lines (header skipped, single scan) matching
that pattern — a line matching several patterns is appended to each of their
files — while every file not named by a tracking pattern is left untouched. -/
theorem C7_tracking_splits (tracking : List (String × (String → Bool)))
    (raw : List String) (fs : FS)
    (hnd : (tracking.map Prod.fst).Nodup) :
    (∀ t ∈ tracking,
      FS.lines (create_tracking_splits tracking raw fs) t.1
        = (raw.drop 1).filter t.2)
    ∧ ∀ p, p ∉ tracking.map Prod.fst →
        create_tracking_splits tracking raw fs p = fs p := by
  constructor
  · intro t ht
    rw [create_tracking_splits_eq, lines_appendMatches tracking hnd t ht]
    have hbase : FS.lines ((tracking.map Prod.fst).foldl FS.remove fs) t.1
        = [] := by
      unfold FS.lines
      rw [foldl_remove_of_mem _ _ _ (List.mem_map_of_mem Prod.fst ht)]
      rfl
    rw [hbase, List.nil_append]
  · intro p hp
    rw [create_tracking_splits_eq, appendMatches_not_mem _ _ _ _ hp,
      foldl_remove_of_not_mem _ _ _ hp]

/-- C7 witness: two concrete patterns over a three-line corpus; the line "a"
matches both patterns and is appended to both tracking files, the stale
contents of t1 is erased, and the file "train" is untouched. -/
theorem C7_witness :
    (∀ t ∈ [("t1", fun l => l == "a"),
        ("t2", fun l : String => l != "z")],
      FS.lines (create_tracking_splits
          [("t1", fun l => l == "a"), ("t2", fun l : String => l != "z")]
          ["header", "a", "z"] (FS.empty.appendLine "t1" "stale")) t.1
        = (["header", "a", "z"].drop 1).filter t.2)
    ∧ ∀ p, p ∉ [("t1", fun l : String => l == "a"),
          ("t2", fun l : String => l != "z")].map Prod.fst →
        create_tracking_splits
            [("t1", fun l => l == "a"), ("t2", fun l : String => l != "z")]
            ["header", "a", "z"] (FS.empty.appendLine "t1" "stale") p
          = (FS.empty.appendLine "t1" "stale") p :=
  C7_tracking_splits _ _ _ (by decide)

end Transductions
